import Mathlib

/-!
Verification development for the bytes-format codec (BytesFormat).

The TypeScript sources are embedded shallowly:

* JS strings are modelled as `List Char`; JS numbers occurring in raw
  option objects are modelled by the inductive `JSVal` (finite numbers are
  rationals, since raw options may hold non-integers).
* Byte sequences (`Uint8Array`) are modelled as `List Nat` together with
  the hypothesis that every element is below 256; the element conversion
  performed by `Uint8Array.from` reduces stored values modulo 256.
* Fallible code returns `Except`: thrown `TypeError`s of the per-byte
  decoder become `ByteParseError`, thrown errors of the strict option
  resolver become `ResolveError`.
* The two revisions of the option resolver present in the sources are both
  embedded: `_resolveFormatOptions` (the strict revision, which throws) and
  `_resolveFormatOptionsLenient` (the lenient revision, which is total).

The source field names `prefix` and `suffix` are rendered `prefixStr` and
`suffixStr` because `prefix` is a Lean keyword.
-/

/-- Model of a raw JavaScript option value: `undefined`, a boolean, a
string, a finite number (as a rational, so that non-integers are
representable), a non-finite number (NaN or an infinity), or any other
value (object, null, ...). -/
inductive JSVal where
  | undef
  | bool (b : Bool)
  | str (s : List Char)
  | num (q : ℚ)
  | nanOrInfinity
  | other
deriving DecidableEq

deriving instance DecidableEq for Except

/-- JavaScript Number.MAX_SAFE_INTEGER. -/
def maxSafeInteger : Int := 9007199254740991

/-- Model of the resolved option record `_ResolvedFormatOptions`: every
field of the public options made mandatory.  The digit-width field is named
`paddedLength` in the strict source revision and `minIntegralDigits` in the
lenient one; the single field `paddedLength` models both. -/
structure ResolvedFormatOptions where
  radix : Nat
  paddedLength : Nat
  lowerCase : Bool
  prefixStr : List Char
  suffixStr : List Char
  separator : List Char
deriving DecidableEq

/-- Source `_minPaddedLengthOf`: the radix-specific floor of the padded
digit-string length (the `switch` has no default; unreachable radices are
mapped to 0 here). -/
def _minPaddedLengthOf (radix : Nat) : Nat :=
  match radix with
  | 2 => 8
  | 8 => 3
  | 10 => 3
  | 16 => 2
  | _ => 0

/-- A resolved configuration produced by either resolver: the radix is a
member of the fixed set and the padded length is at least the radix floor. -/
def ResolvedFormatOptions.Valid (o : ResolvedFormatOptions) : Prop :=
  (o.radix = 2 ∨ o.radix = 8 ∨ o.radix = 10 ∨ o.radix = 16) ∧
    _minPaddedLengthOf o.radix ≤ o.paddedLength

instance (o : ResolvedFormatOptions) : Decidable o.Valid := by
  unfold ResolvedFormatOptions.Valid; infer_instance

/-- Source `_isFormatRadix`: a value is a format radix when it is a number
and a member of `_FORMAT_RADIXES = [2, 8, 10, 16]` (JS `includes` compares
with strict equality, so only finite numbers can be members). -/
def _isFormatRadix (value : JSVal) : Bool :=
  match value with
  | .num q => q == 2 || q == 8 || q == 10 || q == 16
  | _ => false

/-- The numeric value of a raw radix member, as a natural number.  Only
meaningful when `_isFormatRadix` holds; both resolvers use it for the
selected branch of the conditional expression. -/
def _radixValToNat (value : JSVal) : Nat :=
  match value with
  | .num q => if q == 2 then 2 else if q == 8 then 8 else if q == 10 then 10 else 16
  | _ => 16

/-- Source `SafeInteger.isPositiveSafeInteger` (mirrored in-repository by
`_isPositiveInteger` of x.ts): the value is a number, a safe integer, and
strictly positive. -/
def _isPositiveSafeInteger (value : JSVal) : Bool :=
  match value with
  | .num q => decide (q.den = 1 ∧ 0 < q.num ∧ q.num ≤ maxSafeInteger)
  | _ => false

/-- Modelled from the spec: the external safe-integer coercion collaborator
`SafeInteger.fromNumber` is not part of this repository.  Its contract
(spec section 6) is: given a raw value, a clamp range and a fallback,
return an integer within the range, or the fallback if the input is not a
finite integer convertible to that range; a non-number input throws (the
lenient caller wraps the call in try/catch), `undefined` and non-finite
numbers yield the fallback. -/
def SafeInteger.fromNumber (value : JSVal) (fallback lo hi : Int) : Except Unit Int :=
  match value with
  | .num q =>
      .ok (if q.den = 1 ∧ q.num.natAbs ≤ maxSafeInteger.natAbs
        then max lo (min hi q.num) else fallback)
  | .undef => .ok fallback
  | .nanOrInfinity => .ok fallback
  | _ => .error ()

/-- Raw options of the strict source revision (`radix`, `paddedLength`,
`lowerCase`, `prefix`, `suffix`, `separator`, all optional). -/
structure RawOptions where
  radix : JSVal
  paddedLength : JSVal
  lowerCase : JSVal
  prefixStr : JSVal
  suffixStr : JSVal
  separator : JSVal
deriving DecidableEq

/-- Raw options of the lenient source revision (field `minIntegralDigits`
instead of `paddedLength`). -/
structure RawOptionsV0 where
  radix : JSVal
  minIntegralDigits : JSVal
  lowerCase : JSVal
  prefixStr : JSVal
  suffixStr : JSVal
  separator : JSVal
deriving DecidableEq

/-- Errors thrown by the strict option resolver.  The constructor
`rangeError` mirrors the RangeError announced by the resolver's doc
comment; the development shows it is never produced. -/
inductive ResolveError where
  | typeError (field : List Char)
  | rangeError (field : List Char)
deriving DecidableEq

/-- Source `_resolveFormatOptions` of the strict revision: throws
`TypeError("radix")` when a present radix is not a member of the fixed set,
throws `TypeError("paddedLength")` when a present padded length is not a
positive safe integer, and otherwise resolves, clamping the padded length
into `[minPaddedLength, MAX_SAFE_INTEGER]` with fallback `minPaddedLength`.
The inner `.error` branch of the coercion is unreachable because the value
was checked to be `undefined` or a positive safe integer. -/
def _resolveFormatOptions (options : RawOptions) :
    Except ResolveError ResolvedFormatOptions :=
  if _isFormatRadix options.radix || options.radix == .undef then
    let radix : Nat :=
      if _isFormatRadix options.radix then _radixValToNat options.radix else 16
    if _isPositiveSafeInteger options.paddedLength || options.paddedLength == .undef then
      let minPaddedLength := _minPaddedLengthOf radix
      match SafeInteger.fromNumber options.paddedLength minPaddedLength
          minPaddedLength maxSafeInteger with
      | .error _ => .error (.typeError ("paddedLength".data))
      | .ok pl =>
        let lowerCase : Bool :=
          match options.lowerCase with
          | .bool b => b
          | _ => false
        let prefixStr : List Char :=
          match options.prefixStr with
          | .str s => s
          | _ => []
        let suffixStr : List Char :=
          match options.suffixStr with
          | .str s => s
          | _ => []
        let separator : List Char :=
          match options.separator with
          | .str s => s
          | _ => []
        .ok { radix := radix, paddedLength := pl.toNat, lowerCase := lowerCase,
              prefixStr := prefixStr, suffixStr := suffixStr, separator := separator }
    else .error (.typeError ("paddedLength".data))
  else .error (.typeError ("radix".data))

/-- Source `_resolveFormatOptions` of the lenient revision: the radix falls
back silently to 16, the digit width is coerced inside a try/catch (a
thrown coercion error leaves the floor in place), and the remaining fields
are copied when of the correct type, else defaulted.  The copy of
`lowerCase`, `prefix` and `suffix` is performed there by the external
`SafeIntegerFormat.Options.resolve`; it is modelled from the spec (section
4.1 step 4): copy each field verbatim when of the correct type, else apply
the stated default. -/
def _resolveFormatOptionsLenient (options : RawOptionsV0) : ResolvedFormatOptions :=
  let radix : Nat :=
    if _isFormatRadix options.radix then _radixValToNat options.radix else 16
  let floor0 : Int := _minPaddedLengthOf radix
  let minIntegralDigits : Int :=
    match SafeInteger.fromNumber options.minIntegralDigits floor0 floor0 maxSafeInteger with
    | .ok v => v
    | .error _ => floor0
  let lowerCase : Bool :=
    match options.lowerCase with
    | .bool b => b
    | _ => false
  let prefixStr : List Char :=
    match options.prefixStr with
    | .str s => s
    | _ => []
  let suffixStr : List Char :=
    match options.suffixStr with
    | .str s => s
    | _ => []
  let separator : List Char :=
    match options.separator with
    | .str s => s
    | _ => []
  { radix := radix, paddedLength := minIntegralDigits.toNat, lowerCase := lowerCase,
    prefixStr := prefixStr, suffixStr := suffixStr, separator := separator }

/-- JS String.prototype.padStart with a single-character pad string: pad on
the left until the length is at least the target (a no-op when the string
is already long enough, via truncated subtraction). -/
def padStart (s : List Char) (targetLength : Nat) (padChar : Char) : List Char :=
  List.replicate (targetLength - s.length) padChar ++ s

/-- Source `_formatByte`: convert the byte to its base-radix digit string
(JS Number.prototype.toString, lowercase digits, modelled by Nat.toDigits),
uppercase it unless `lowerCase` is true, left-pad with zeros to
`paddedLength`, and wrap in prefix and suffix. -/
def _formatByte (byte : Nat) (options : ResolvedFormatOptions) : List Char :=
  let str := Nat.toDigits options.radix byte
  let str := if options.lowerCase then str else str.map Char.toUpper
  let str := padStart str options.paddedLength '0'
  options.prefixStr ++ str ++ options.suffixStr

/-- JS Array.prototype.join: concatenate the elements, interposing the
separator between consecutive elements. -/
def joinWithSep (sep : List Char) : List (List Char) → List Char
  | [] => []
  | [u] => u
  | u :: v :: us => u ++ sep ++ joinWithSep sep (v :: us)

/-- Source `_format`: format each byte and join with the separator. -/
def _format (bytes : List Nat) (options : ResolvedFormatOptions) : List Char :=
  joinWithSep options.separator (bytes.map (fun byte => _formatByte byte options))

/-- Character-class test of the per-radix digit pattern used by
`_createByteRegex` (`[01]`, `[0-7]`, `[0-9]`, `[0-9A-Fa-f]`). -/
def isRadixDigit (radix : Nat) (c : Char) : Bool :=
  if radix = 2 then decide (48 ≤ c.toNat ∧ c.toNat ≤ 49)
  else if radix = 8 then decide (48 ≤ c.toNat ∧ c.toNat ≤ 55)
  else if radix = 10 then decide (48 ≤ c.toNat ∧ c.toNat ≤ 57)
  else if radix = 16 then
    decide ((48 ≤ c.toNat ∧ c.toNat ≤ 57) ∨ (65 ≤ c.toNat ∧ c.toNat ≤ 70) ∨
      (97 ≤ c.toNat ∧ c.toNat ≤ 102))
  else false

/-- Source `_createByteRegex` combined with RegExp.prototype.test: the
anchored pattern is zero-padding of length `paddedLength - bodyLength`
(truncated at zero, matching the source's positivity guard) followed by
exactly `bodyLength` digit characters of the radix. -/
def _byteRegexTest (options : ResolvedFormatOptions) (work : List Char) : Bool :=
  let bodyLength := _minPaddedLengthOf options.radix
  let paddingLength := options.paddedLength - bodyLength
  work.length == paddingLength + bodyLength &&
    (work.take paddingLength).all (fun c => c == '0') &&
    (work.drop paddingLength).all (fun c => isRadixDigit options.radix c)

/-- Value of one digit character, as consumed by JS Number.parseInt
(decimal digits, then upper-case letters, then lower-case letters).  Only
applied to characters accepted by the byte regex. -/
def digitVal (c : Char) : Nat :=
  if 48 ≤ c.toNat ∧ c.toNat ≤ 57 then c.toNat - 48
  else if 65 ≤ c.toNat ∧ c.toNat ≤ 90 then c.toNat - 55
  else if 97 ≤ c.toNat ∧ c.toNat ≤ 122 then c.toNat - 87
  else 0

/-- JS Number.parseInt on a string consisting solely of digit characters
valid in the radix (which the byte regex guarantees at the call site):
the positional value of the digit string. -/
def parseIntList (radix : Nat) (s : List Char) : Nat :=
  s.foldl (fun acc c => acc * radix + digitVal c) 0

/-- Errors thrown by the per-byte decoder `_parseByte`: the three
`TypeError` classifications of the source. -/
inductive ByteParseError where
  | unprefixed
  | unsuffixed
  | malformed (core : List Char)
deriving DecidableEq

/-- Source `_parseByte`: strip a non-empty prefix (else throw
`unprefixed`), strip a non-empty suffix (else throw `unsuffixed`), test
the byte regex (else throw the parse error naming the remaining core),
then parse the core as an unsigned integer in the radix. -/
def _parseByte (formatted : List Char) (options : ResolvedFormatOptions) :
    Except ByteParseError Nat :=
  let step1 : Except ByteParseError (List Char) :=
    if options.prefixStr.length > 0 then
      if options.prefixStr.isPrefixOf formatted then
        .ok (formatted.drop options.prefixStr.length)
      else .error .unprefixed
    else .ok formatted
  match step1 with
  | .error e => .error e
  | .ok work1 =>
    let step2 : Except ByteParseError (List Char) :=
      if options.suffixStr.length > 0 then
        if options.suffixStr.isSuffixOf work1 then
          .ok (work1.take (work1.length - options.suffixStr.length))
        else .error .unsuffixed
      else .ok work1
    match step2 with
    | .error e => .error e
    | .ok work2 =>
      if _byteRegexTest options work2 then .ok (parseIntList options.radix work2)
      else .error (.malformed work2)

/-- Fuel-indexed body of the string segmentation generator
(`_segmentString` of x.ts / the external StringEx.segment): repeatedly
take `count` characters.  Each step consumes at least one character when
`count` is at least 1, so fuel equal to the string length suffices; the
zero-fuel branch on a non-empty string is unreachable at the call sites
(where `count` is at least 2). -/
def _segmentStringFuel (count : Nat) : Nat → List Char → List (List Char)
  | _, [] => []
  | 0, _ :: _ => []
  | fuel + 1, c :: rest =>
      (c :: rest).take count :: _segmentStringFuel count fuel ((c :: rest).drop count)

/-- Source `_segmentString`: partition a string into consecutive
substrings of `count` characters, the last possibly shorter. -/
def _segmentString (s : List Char) (count : Nat) : List (List Char) :=
  _segmentStringFuel count s.length s

/-- Fuel-indexed body of JS String.prototype.split with a non-empty
separator string: scan left to right, cutting at each leftmost,
non-overlapping occurrence of the separator.  Each step consumes at least
one character (the separator is non-empty in the cutting branch), so fuel
equal to the string length suffices; the zero-fuel branch is unreachable. -/
def splitOnListAux (sep : List Char) : Nat → List Char → List Char → List (List Char)
  | _, [], acc => [acc.reverse]
  | 0, c :: rest, acc => [acc.reverse ++ c :: rest]
  | fuel + 1, c :: rest, acc =>
      if !sep.isEmpty && sep.isPrefixOf (c :: rest) then
        acc.reverse :: splitOnListAux sep fuel (List.drop sep.length (c :: rest)) []
      else splitOnListAux sep fuel rest (c :: acc)

/-- JS String.prototype.split with a non-empty string separator. -/
def splitOnList (sep s : List Char) : List (List Char) :=
  splitOnListAux sep s.length s []

/-- The per-byte strings that `_parse` decodes: split on the separator
when it is non-empty, else fixed-width segmentation at width
`paddedLength + |prefix| + |suffix|`. -/
def _byteStringArray (toParse : List Char) (options : ResolvedFormatOptions) :
    List (List Char) :=
  if options.separator.length > 0 then splitOnList options.separator toParse
  else
    _segmentString toParse
      (options.paddedLength + options.prefixStr.length + options.suffixStr.length)

/-- The element mapping of `Uint8Array.from` in `_parse`: decode each unit
left to right, aborting at the first thrown error; a stored element is
reduced modulo 256 by the typed-array element conversion. -/
def _parseAll (options : ResolvedFormatOptions) :
    List (List Char) → Except ByteParseError (List Nat)
  | [] => .ok []
  | bs :: rest =>
    match _parseByte bs options with
    | .error e => .error e
    | .ok v =>
      match _parseAll options rest with
      | .error e => .error e
      | .ok vs => .ok (v % 256 :: vs)

/-- Source `_parse`: compute the per-byte strings; when the separator is
non-empty and the split of the input yielded exactly one empty string
(i.e. the input was empty), return the empty sequence; otherwise decode
every unit. -/
def _parse (toParse : List Char) (options : ResolvedFormatOptions) :
    Except ByteParseError (List Nat) :=
  let byteStringArray := _byteStringArray toParse options
  if options.separator.length > 0 ∧ byteStringArray = [[]] then .ok []
  else _parseAll options byteStringArray

/-- Combined error type of the public entry points of the strict
revision: option resolution errors and decode errors. -/
inductive BytesFormatError where
  | resolve (e : ResolveError)
  | byteParse (e : ByteParseError)
deriving DecidableEq

/-- Public `BytesFormat.parse` of the strict revision: resolve, then
parse. -/
def BytesFormat.parse (formattedBytes : List Char) (options : RawOptions) :
    Except BytesFormatError (List Nat) :=
  match _resolveFormatOptions options with
  | .error e => .error (.resolve e)
  | .ok resolvedOptions =>
    match _parse formattedBytes resolvedOptions with
    | .error e => .error (.byteParse e)
    | .ok bytes => .ok bytes

/-- Public `BytesFormat.format` of the strict revision: resolve, then
format. -/
def BytesFormat.format (bytes : List Nat) (options : RawOptions) :
    Except BytesFormatError (List Char) :=
  match _resolveFormatOptions options with
  | .error e => .error (.resolve e)
  | .ok resolvedOptions => .ok (_format bytes resolvedOptions)

/-- Raw options with every field omitted. -/
def rawDefault : RawOptions :=
  { radix := .undef, paddedLength := .undef, lowerCase := .undef,
    prefixStr := .undef, suffixStr := .undef, separator := .undef }

/-- Raw options selecting only a radix. -/
def rawWithRadix (q : ℚ) : RawOptions :=
  { rawDefault with radix := .num q }

/-- The resolved configuration produced for raw options that select only a
radix member: the floor width, upper case, empty affixes and separator. -/
def resolvedDefault (radix : Nat) : ResolvedFormatOptions :=
  { radix := radix, paddedLength := _minPaddedLengthOf radix, lowerCase := false,
    prefixStr := [], suffixStr := [], separator := [] }

set_option maxRecDepth 4096 in
/-- Exhaustive facts about the digit strings of bytes: for each supported
radix and every byte, the digit string is non-empty, no longer than the
radix floor, consists of radix digits (in either case), and evaluates back
to the byte under positional parsing. -/
theorem digits_bundle : ∀ r, r ∈ ([2, 8, 10, 16] : List Nat) → ∀ b, b < 256 →
    1 ≤ (Nat.toDigits r b).length ∧
    (Nat.toDigits r b).length ≤ _minPaddedLengthOf r ∧
    ((Nat.toDigits r b).all (fun c => isRadixDigit r c)) = true ∧
    (((Nat.toDigits r b).map Char.toUpper).all (fun c => isRadixDigit r c)) = true ∧
    parseIntList r (Nat.toDigits r b) = b ∧
    parseIntList r ((Nat.toDigits r b).map Char.toUpper) = b := by decide

/-- The zero character is a digit of every supported radix. -/
theorem isRadixDigit_zero (r : Nat) (hr : r = 2 ∨ r = 8 ∨ r = 10 ∨ r = 16) :
    isRadixDigit r '0' = true := by
  rcases hr with h | h | h | h <;> subst h <;> decide

/-- A digit accepted by the radix character class has value below the
radix. -/
theorem digitVal_lt_of_isRadixDigit (r : Nat) (hr : r = 2 ∨ r = 8 ∨ r = 10 ∨ r = 16)
    (c : Char) (h : isRadixDigit r c = true) : digitVal c < r := by
  rcases hr with h' | h' | h' | h' <;> subst h' <;>
    simp [isRadixDigit] at h <;>
    unfold digitVal <;> split_ifs <;> omega

/-- Folding the positional accumulator over zero characters keeps it at
zero. -/
theorem foldl_parseInt_zeros (r : Nat) :
    ∀ z : List Char, (∀ c ∈ z, c = '0') →
      List.foldl (fun acc c => acc * r + digitVal c) 0 z = 0 := by
  intro z
  induction z with
  | nil => intro _; rfl
  | cons c z ih =>
    intro h
    have hc : c = '0' := h c (by simp)
    subst hc
    have hd : digitVal '0' = 0 := by decide
    simp only [List.foldl_cons, hd, Nat.zero_mul, Nat.add_zero]
    exact ih (fun c hm => h c (by simp [hm]))

/-- Leading zero characters do not change the parsed value. -/
theorem parseIntList_zeros_append (r : Nat) (z s : List Char)
    (hz : ∀ c ∈ z, c = '0') : parseIntList r (z ++ s) = parseIntList r s := by
  unfold parseIntList
  rw [List.foldl_append, foldl_parseInt_zeros r z hz]

/-- Positional parsing of a digit string is bounded by the radix power of
its length. -/
theorem foldl_parseInt_lt (r : Nat) :
    ∀ s : List Char, ∀ acc : Nat, (∀ c ∈ s, digitVal c < r) →
      List.foldl (fun a c => a * r + digitVal c) acc s < (acc + 1) * r ^ s.length := by
  intro s
  induction s with
  | nil => intro acc _; simp
  | cons c s ih =>
    intro acc h
    have hd : digitVal c < r := h c (by simp)
    have step := ih (acc * r + digitVal c) (fun x hx => h x (by simp [hx]))
    have hle : (acc * r + digitVal c + 1) * r ^ s.length ≤ ((acc + 1) * r) * r ^ s.length := by
      have : acc * r + digitVal c + 1 ≤ (acc + 1) * r := by
        have : acc * r + r ≤ acc * r + r := le_refl _
        calc acc * r + digitVal c + 1 ≤ acc * r + r := by omega
          _ = (acc + 1) * r := by ring
      exact Nat.mul_le_mul_right _ this
    calc List.foldl (fun a c => a * r + digitVal c) (acc * r + digitVal c) s
        < (acc * r + digitVal c + 1) * r ^ s.length := step
      _ ≤ ((acc + 1) * r) * r ^ s.length := hle
      _ = (acc + 1) * r ^ (s.length + 1) := by ring

/-- The padded, case-adjusted digit string of `_formatByte` passes the
byte regex of `_createByteRegex` whenever the configuration is resolved
and the body is a non-empty digit string no longer than the radix floor. -/
theorem byteRegexTest_padStart (opts : ResolvedFormatOptions) (h : opts.Valid)
    (body : List Char) (h1 : 1 ≤ body.length)
    (h2 : body.length ≤ _minPaddedLengthOf opts.radix)
    (h3 : body.all (fun c => isRadixDigit opts.radix c) = true) :
    _byteRegexTest opts (padStart body opts.paddedLength '0') = true := by
  obtain ⟨hrad, hfloor⟩ := h
  unfold _byteRegexTest padStart
  dsimp only
  set f := _minPaddedLengthOf opts.radix with hf
  set L := opts.paddedLength with hL
  set bl := body.length with hbl
  have hlen : (List.replicate (L - bl) '0' ++ body).length = L := by
    simp [List.length_replicate]
    omega
  have htake : (List.replicate (L - bl) '0' ++ body).take (L - f) =
      List.replicate (L - f) '0' := by
    rw [List.take_append_eq_append_take, List.take_replicate, List.length_replicate]
    have hz : L - f - (L - bl) = 0 := by omega
    have hm : (L - f) ⊓ (L - bl) = L - f := by
      simp [Nat.min_def]
      omega
    rw [hz, hm]
    simp
  have hdrop : (List.replicate (L - bl) '0' ++ body).drop (L - f) =
      List.replicate (bl - f + (f - bl)) '0' ++ body := by
    rw [List.drop_append_eq_append_drop, List.drop_replicate, List.length_replicate]
    have hz : L - f - (L - bl) = 0 := by omega
    have hm : L - bl - (L - f) = bl - f + (f - bl) := by omega
    rw [hz, hm]
    simp
  rw [hlen, htake, hdrop]
  simp only [Bool.and_eq_true, beq_iff_eq, List.all_eq_true]
  refine ⟨⟨by omega, ?_⟩, ?_⟩
  · intro c hc
    rw [List.mem_replicate] at hc
    simp [hc.2]
  · intro c hc
    rcases List.mem_append.mp hc with hc | hc
    · rw [List.mem_replicate] at hc
      rw [hc.2]
      exact isRadixDigit_zero opts.radix hrad
    · exact (List.all_eq_true.mp h3) c hc

/-- The characters of a replicate of zeros are all the zero character. -/
theorem mem_replicate_zero (n : Nat) : ∀ c ∈ List.replicate n '0', c = '0' := by
  intro c hc
  exact (List.mem_replicate.mp hc).2

/-- The case-adjusted digit string computed by `_formatByte`. -/
def formatBody (opts : ResolvedFormatOptions) (byte : Nat) : List Char :=
  if opts.lowerCase then Nat.toDigits opts.radix byte
  else (Nat.toDigits opts.radix byte).map Char.toUpper

/-- Facts about the case-adjusted digit string of a byte, drawn from the
exhaustive bundle. -/
theorem formatBody_facts (opts : ResolvedFormatOptions) (h : opts.Valid)
    (byte : Nat) (hb : byte < 256) :
    1 ≤ (formatBody opts byte).length ∧
    (formatBody opts byte).length ≤ _minPaddedLengthOf opts.radix ∧
    (formatBody opts byte).all (fun c => isRadixDigit opts.radix c) = true ∧
    parseIntList opts.radix (formatBody opts byte) = byte := by
  have hmem : opts.radix ∈ ([2, 8, 10, 16] : List Nat) := by
    rcases h.1 with h' | h' | h' | h' <;> simp [h']
  have bd := digits_bundle opts.radix hmem byte hb
  unfold formatBody
  cases opts.lowerCase <;> simp only [if_true, if_false, Bool.false_eq_true, reduceIte]
  · exact ⟨by simpa using bd.1, by simpa using bd.2.1, bd.2.2.2.1, bd.2.2.2.2.2⟩
  · exact ⟨bd.1, bd.2.1, bd.2.2.1, bd.2.2.2.2.1⟩

/-- Unfolding of `_formatByte` through `formatBody`. -/
theorem formatByte_eq (opts : ResolvedFormatOptions) (byte : Nat) :
    _formatByte byte opts =
      opts.prefixStr ++ padStart (formatBody opts byte) opts.paddedLength '0' ++
        opts.suffixStr := by
  unfold _formatByte formatBody
  cases opts.lowerCase <;> simp

/-- Per-unit round trip: decoding the unit formatted from a byte under a
resolved configuration returns exactly that byte. -/
theorem parseByte_formatByte (opts : ResolvedFormatOptions) (h : opts.Valid)
    (byte : Nat) (hb : byte < 256) :
    _parseByte (_formatByte byte opts) opts = .ok byte := by
  obtain ⟨hb1, hb2, hb3, hb4⟩ := formatBody_facts opts h byte hb
  set body := formatBody opts byte with hbody
  set padded := padStart body opts.paddedLength '0' with hpadded
  have hfmt : _formatByte byte opts = opts.prefixStr ++ padded ++ opts.suffixStr :=
    formatByte_eq opts byte
  have hregex : _byteRegexTest opts padded = true :=
    byteRegexTest_padStart opts h body hb1 hb2 hb3
  have hval : parseIntList opts.radix padded = byte := by
    rw [hpadded]
    unfold padStart
    rw [parseIntList_zeros_append opts.radix _ body
      (mem_replicate_zero (opts.paddedLength - body.length))]
    exact hb4
  rw [hfmt]
  unfold _parseByte
  have hstep1 :
      (if opts.prefixStr.length > 0 then
        if opts.prefixStr.isPrefixOf (opts.prefixStr ++ padded ++ opts.suffixStr) then
          Except.ok ((opts.prefixStr ++ padded ++ opts.suffixStr).drop opts.prefixStr.length)
        else Except.error ByteParseError.unprefixed
      else Except.ok (opts.prefixStr ++ padded ++ opts.suffixStr)) =
        Except.ok (padded ++ opts.suffixStr) := by
    by_cases hp : opts.prefixStr.length > 0
    · have hpre : opts.prefixStr.isPrefixOf (opts.prefixStr ++ padded ++ opts.suffixStr) = true := by
        rw [List.isPrefixOf_iff_prefix, List.append_assoc]
        exact List.prefix_append _ _
      rw [if_pos hp, if_pos hpre, List.append_assoc, List.drop_left]
    · have hpe : opts.prefixStr = [] := by
        rw [← List.length_eq_zero]
        omega
      rw [if_neg hp, hpe, List.nil_append]
  rw [hstep1]
  dsimp only
  have hstep2 :
      (if opts.suffixStr.length > 0 then
        if opts.suffixStr.isSuffixOf (padded ++ opts.suffixStr) then
          Except.ok ((padded ++ opts.suffixStr).take
            ((padded ++ opts.suffixStr).length - opts.suffixStr.length))
        else Except.error ByteParseError.unsuffixed
      else Except.ok (padded ++ opts.suffixStr)) = Except.ok padded := by
    by_cases hs : opts.suffixStr.length > 0
    · have hsuf : opts.suffixStr.isSuffixOf (padded ++ opts.suffixStr) = true := by
        rw [List.isSuffixOf_iff_suffix]
        exact List.suffix_append _ _
      have hlen : (padded ++ opts.suffixStr).length - opts.suffixStr.length =
          padded.length := by
        simp
      rw [if_pos hs, if_pos hsuf, hlen, List.take_left]
    · have hse : opts.suffixStr = [] := by
        rw [← List.length_eq_zero]
        omega
      rw [if_neg hs, hse, List.append_nil]
  rw [hstep2]
  dsimp only
  rw [if_pos hregex, hval]

/-- Joining with the empty separator is concatenation. -/
theorem joinWithSep_nil_sep : ∀ us : List (List Char), joinWithSep [] us = us.flatten := by
  intro us
  induction us with
  | nil => rfl
  | cons u us ih =>
    cases us with
    | nil => simp [joinWithSep]
    | cons v vs => simp [joinWithSep, ih]

/-- The segmentation body does not depend on the exact fuel, provided the
fuel covers the string length and the width is positive. -/
theorem segmentFuel_fuel_irrel (count : Nat) (hc : 1 ≤ count) :
    ∀ f1 : Nat, ∀ s : List Char, ∀ f2 : Nat, s.length ≤ f1 → s.length ≤ f2 →
      _segmentStringFuel count f1 s = _segmentStringFuel count f2 s := by
  intro f1
  induction f1 with
  | zero =>
    intro s f2 h1 _
    have hs : s = [] := List.eq_nil_of_length_eq_zero (by omega)
    subst hs
    cases f2 <;> rfl
  | succ f1 ih =>
    intro s f2 h1 h2
    cases s with
    | nil => cases f2 <;> rfl
    | cons c rest =>
      cases f2 with
      | zero => simp at h2
      | succ f2 =>
        simp only [_segmentStringFuel]
        rw [ih ((c :: rest).drop count) f2]
        · simp only [List.length_drop, List.length_cons] at *
          omega
        · simp only [List.length_drop, List.length_cons] at *
          omega

/-- Flattening the segmentation recovers the string. -/
theorem segmentFuel_flatten (count : Nat) (hc : 1 ≤ count) :
    ∀ f : Nat, ∀ s : List Char, s.length ≤ f →
      (_segmentStringFuel count f s).flatten = s := by
  intro f
  induction f with
  | zero =>
    intro s h
    have hs : s = [] := List.eq_nil_of_length_eq_zero (by omega)
    subst hs
    rfl
  | succ f ih =>
    intro s h
    cases s with
    | nil => rfl
    | cons c rest =>
      simp only [_segmentStringFuel, List.flatten_cons]
      rw [ih ((c :: rest).drop count) (by simp only [List.length_drop, List.length_cons] at *; omega)]
      exact List.take_append_drop count (c :: rest)

/-- Segmenting the concatenation of strings of length exactly the width
recovers those strings. -/
theorem segmentFuel_of_uniform (count : Nat) (hc : 1 ≤ count) :
    ∀ us : List (List Char), (∀ u ∈ us, u.length = count) →
      ∀ f : Nat, us.flatten.length ≤ f →
        _segmentStringFuel count f us.flatten = us := by
  intro us
  induction us with
  | nil =>
    intro _ f _
    cases f <;> rfl
  | cons u us ih =>
    intro h f hf
    have hu : u.length = count := h u (by simp)
    cases u with
    | nil => simp at hu; omega
    | cons c cs =>
      rw [List.flatten_cons] at hf ⊢
      cases f with
      | zero => simp at hf
      | succ f =>
        rw [List.cons_append]
        simp only [_segmentStringFuel]
        rw [← List.cons_append]
        have htake : (List.take count ((c :: cs) ++ us.flatten)) = c :: cs := by
          rw [← hu]
          exact List.take_left _ _
        have hdrop : (List.drop count ((c :: cs) ++ us.flatten)) = us.flatten := by
          rw [← hu]
          exact List.drop_left _ _
        rw [htake, hdrop, ih (fun v hv => h v (by simp [hv])) f (by
          simp only [List.length_append] at hf
          omega)]

/-- Source-level corollary: `_segmentString` of a concatenation of
width-`count` strings is exactly those strings. -/
theorem segmentString_of_uniform (count : Nat) (hc : 1 ≤ count)
    (us : List (List Char)) (h : ∀ u ∈ us, u.length = count) :
    _segmentString us.flatten count = us :=
  segmentFuel_of_uniform count hc us h us.flatten.length (le_refl _)

/-- Shape of the segments produced by the segmentation: every segment but
the last has length exactly the width, and the last is non-empty and no
longer than the width. -/
theorem segmentFuel_shape (count : Nat) (hc : 1 ≤ count) :
    ∀ f : Nat, ∀ s : List Char, s.length ≤ f →
      (∀ u ∈ (_segmentStringFuel count f s).dropLast, u.length = count) ∧
      (∀ l, (_segmentStringFuel count f s).getLast? = some l →
        l ≠ [] ∧ l.length ≤ count) := by
  intro f
  induction f with
  | zero =>
    intro s h
    have hs : s = [] := List.eq_nil_of_length_eq_zero (by omega)
    subst hs
    have h0 : _segmentStringFuel count 0 ([] : List Char) = [] := rfl
    rw [h0]
    exact ⟨by intro u hu; simp at hu, by intro l hl; simp at hl⟩
  | succ f ih =>
    intro s h
    cases s with
    | nil =>
      have h0 : _segmentStringFuel count (f + 1) ([] : List Char) = [] := rfl
      rw [h0]
      exact ⟨by intro u hu; simp at hu, by intro l hl; simp at hl⟩
    | cons c rest =>
      simp only [_segmentStringFuel]
      have hdl : ((c :: rest).drop count).length ≤ f := by
        simp only [List.length_drop, List.length_cons] at *
        omega
      rcases hrec : (c :: rest).drop count with _ | ⟨d, ds⟩
      · have h0 : _segmentStringFuel count f ([] : List Char) = [] := by cases f <;> rfl
        rw [h0]
        constructor
        · intro u hu
          simp at hu
        · intro l hl
          simp only [List.getLast?_singleton, Option.some.injEq] at hl
          subst hl
          constructor
          · have hcpos : 0 < count := hc
            simp [List.take_cons hcpos]
          · simp only [List.length_take, List.length_cons]
            omega
      · rw [hrec] at hdl
        obtain ⟨ihall, ihlast⟩ := ih (d :: ds) hdl
        rcases hseg : _segmentStringFuel count f (d :: ds) with _ | ⟨a, segs⟩
        · cases f with
          | zero => simp at hdl
          | succ f => simp [_segmentStringFuel] at hseg
        · rw [hseg] at ihall ihlast
          constructor
          · intro u hu
            rw [List.dropLast_cons₂] at hu
            rcases List.mem_cons.mp hu with hu | hu
            · subst hu
              have hlen : count < (c :: rest).length := by
                by_contra hle
                push_neg at hle
                have : (c :: rest).drop count = [] := by
                  apply List.eq_nil_of_length_eq_zero
                  simp only [List.length_drop]
                  omega
                rw [this] at hrec
                exact List.noConfusion hrec
              simp only [List.length_take]
              omega
            · exact ihall u hu
          · intro l hl
            rw [List.getLast?_cons_cons] at hl
            exact ihlast l hl

/-- The split body does not depend on the exact fuel, provided the fuel
covers the string length. -/
theorem splitOnListAux_fuel_irrel (sep : List Char) :
    ∀ f1 : Nat, ∀ s acc : List Char, ∀ f2 : Nat, s.length ≤ f1 → s.length ≤ f2 →
      splitOnListAux sep f1 s acc = splitOnListAux sep f2 s acc := by
  intro f1
  induction f1 with
  | zero =>
    intro s acc f2 h1 _
    have hs : s = [] := List.eq_nil_of_length_eq_zero (by omega)
    subst hs
    cases f2 <;> rfl
  | succ f1 ih =>
    intro s acc f2 h1 h2
    cases s with
    | nil => cases f2 <;> rfl
    | cons c rest =>
      cases f2 with
      | zero => simp at h2
      | succ f2 =>
        simp only [splitOnListAux]
        by_cases hcond : (!sep.isEmpty && sep.isPrefixOf (c :: rest)) = true
        · rw [if_pos hcond, if_pos hcond]
          have hsep : sep ≠ [] := by
            intro hnil
            subst hnil
            simp at hcond
          have hlen : (List.drop sep.length (c :: rest)).length ≤ f1 := by
            have : 1 ≤ sep.length := by
              cases sep with
              | nil => exact absurd rfl hsep
              | cons _ _ => simp
            simp only [List.length_drop, List.length_cons] at *
            omega
          have hlen2 : (List.drop sep.length (c :: rest)).length ≤ f2 := by
            have : 1 ≤ sep.length := by
              cases sep with
              | nil => exact absurd rfl hsep
              | cons _ _ => simp
            simp only [List.length_drop, List.length_cons] at *
            omega
          rw [ih _ [] f2 hlen hlen2]
        · rw [if_neg hcond, if_neg hcond]
          exact ih rest (c :: acc) f2 (by simp at h1 ⊢; omega) (by simp at h2 ⊢; omega)

/-- Scanning over a chunk whose characters avoid the separator only moves
the chunk into the accumulator. -/
theorem splitOnListAux_chunk (sep : List Char) :
    ∀ u tail acc : List Char, (∀ c ∈ u, c ∉ sep) →
      ∀ f : Nat, (u ++ tail).length ≤ f →
        splitOnListAux sep f (u ++ tail) acc =
          splitOnListAux sep (f - u.length) tail (u.reverse ++ acc) := by
  intro u
  induction u with
  | nil =>
    intro tail acc _ f hf
    simp
  | cons c u ih =>
    intro tail acc h f hf
    cases f with
    | zero => simp at hf
    | succ f =>
      rw [List.cons_append]
      simp only [splitOnListAux]
      have hcond : (!sep.isEmpty && sep.isPrefixOf (c :: (u ++ tail))) = false := by
        rcases hsep : sep with _ | ⟨s0, sep'⟩
        · rfl
        · have hc : c ∉ sep := h c (by simp)
          rw [hsep] at hc
          have : (List.isPrefixOf (s0 :: sep') (c :: (u ++ tail))) = false := by
            by_contra hpre
            rw [Bool.not_eq_false] at hpre
            rw [List.isPrefixOf_iff_prefix] at hpre
            obtain ⟨t, ht⟩ := hpre
            rw [List.cons_append] at ht
            have : s0 = c := (List.cons.injEq _ _ _ _ ▸ ht).1
            subst this
            exact hc (by simp)
          simp [this]
      rw [if_neg (by simp [hcond])]
      rw [ih tail (c :: acc) (fun x hx => h x (by simp [hx])) f (by
        simp only [List.length_append, List.length_cons] at hf ⊢
        omega)]
      have harith : f + 1 - (c :: u).length = f - u.length := by
        simp only [List.length_cons]
        omega
      rw [harith, List.reverse_cons, List.append_assoc]
      simp

/-- Scanning at an occurrence of the separator cuts there. -/
theorem splitOnListAux_at_sep (sep : List Char) (hsep : sep ≠ []) :
    ∀ rest acc : List Char, ∀ f : Nat, (sep ++ rest).length ≤ f →
      splitOnListAux sep f (sep ++ rest) acc =
        acc.reverse :: splitOnListAux sep rest.length rest [] := by
  obtain ⟨s0, sep', hrw⟩ : ∃ a l, sep = a :: l := by
    cases sep with
    | nil => exact absurd rfl hsep
    | cons a l => exact ⟨a, l, rfl⟩
  subst hrw
  intro rest acc f hf
  cases f with
  | zero =>
    exfalso
    simp at hf
  | succ f =>
    rw [List.cons_append]
    simp only [splitOnListAux]
    have hback : s0 :: (sep' ++ rest) = (s0 :: sep') ++ rest := by simp
    have hcond : (!(s0 :: sep').isEmpty &&
        (s0 :: sep').isPrefixOf (s0 :: (sep' ++ rest))) = true := by
      simp only [List.isEmpty_cons, Bool.not_false, Bool.true_and]
      rw [hback, List.isPrefixOf_iff_prefix]
      exact List.prefix_append _ _
    rw [if_pos hcond]
    have hdrop : List.drop (s0 :: sep').length (s0 :: (sep' ++ rest)) = rest := by
      rw [hback]
      exact List.drop_left _ _
    rw [hdrop]
    congr 1
    apply splitOnListAux_fuel_irrel
    · simp only [List.length_append, List.length_cons] at hf ⊢
      omega
    · exact le_refl _

/-- Splitting the join of non-empty units on a separator that shares no
character with any unit recovers the units. -/
theorem splitOnList_joinWithSep (sep : List Char) (hsep : sep ≠ []) :
    ∀ us : List (List Char), us ≠ [] →
      (∀ u ∈ us, ∀ c ∈ u, c ∉ sep) →
      splitOnList sep (joinWithSep sep us) = us := by
  intro us
  induction us with
  | nil => intro h _; exact absurd rfl h
  | cons u us ih =>
    intro _ h
    cases us with
    | nil =>
      unfold splitOnList joinWithSep
      have := splitOnListAux_chunk sep u [] [] (h u (by simp))
        u.length (by simp)
      rw [List.append_nil] at this
      rw [this]
      simp only [Nat.sub_self, List.append_nil]
      simp [splitOnListAux]
    | cons v vs =>
      unfold splitOnList
      rw [show joinWithSep sep (u :: v :: vs) = u ++ (sep ++ joinWithSep sep (v :: vs))
        from by rw [joinWithSep]; simp [List.append_assoc]]
      rw [splitOnListAux_chunk sep u (sep ++ joinWithSep sep (v :: vs)) []
        (h u (by simp)) _ (le_refl _)]
      have harith : (u ++ (sep ++ joinWithSep sep (v :: vs))).length - u.length =
          (sep ++ joinWithSep sep (v :: vs)).length := by
        simp only [List.length_append]
        omega
      rw [harith, List.append_nil]
      rw [splitOnListAux_at_sep sep hsep (joinWithSep sep (v :: vs)) u.reverse _ (le_refl _)]
      rw [List.reverse_reverse]
      have := ih (by simp) (fun w hw => h w (by simp [hw]))
      unfold splitOnList at this
      rw [this]

/-- Decoding the formatted units of a byte sequence yields exactly that
sequence (each unit decodes to its byte, which the element conversion
leaves unchanged). -/
theorem parseAll_map_format (opts : ResolvedFormatOptions) (h : opts.Valid) :
    ∀ bytes : List Nat, (∀ b ∈ bytes, b < 256) →
      _parseAll opts (bytes.map (fun b => _formatByte b opts)) = .ok bytes := by
  intro bytes
  induction bytes with
  | nil => intro _; rfl
  | cons b bs ih =>
    intro hb
    simp only [List.map_cons, _parseAll]
    rw [parseByte_formatByte opts h b (hb b (by simp))]
    rw [ih (fun x hx => hb x (by simp [hx]))]
    have hmod : b % 256 = b := Nat.mod_eq_of_lt (hb b (by simp))
    simp [hmod]

/-- A failing batch decode fails with the error of the first failing unit:
some unit produces exactly the reported error and all units before it
decode successfully. -/
theorem parseAll_first_error (opts : ResolvedFormatOptions) :
    ∀ us : List (List Char), ∀ e, _parseAll opts us = .error e →
      ∃ i, ∃ hi : i < us.length, _parseByte (us.get ⟨i, hi⟩) opts = .error e ∧
        ∀ j, ∀ hj : j < us.length, j < i →
          ∃ v, _parseByte (us.get ⟨j, hj⟩) opts = .ok v := by
  intro us
  induction us with
  | nil =>
    intro e he
    simp [_parseAll] at he
  | cons u us ih =>
    intro e he
    simp only [_parseAll] at he
    split at he
    next eu heq =>
      injection he with he'
      subst he'
      exact ⟨0, by simp, by simpa using heq,
        fun j hj hji => absurd hji (by omega)⟩
    next vu heq =>
      split at he
      next er heq2 =>
        injection he with he'
        subst he'
        obtain ⟨i, hi, hie, hprev⟩ := ih er heq2
        refine ⟨i + 1, by simpa using hi, by simpa using hie, ?_⟩
        intro j hj hji
        cases j with
        | zero => exact ⟨vu, by simpa using heq⟩
        | succ j =>
          have hj' : j < us.length := by simpa using hj
          obtain ⟨v, hv⟩ := hprev j hj' (by omega)
          exact ⟨v, by simpa using hv⟩
      next vs heq2 =>
        exact absurd he (by simp)

/-- The length of a formatted unit is exactly the prefix length plus the
padded length plus the suffix length. -/
theorem formatByte_length (opts : ResolvedFormatOptions) (h : opts.Valid)
    (b : Nat) (hb : b < 256) :
    (_formatByte b opts).length =
      opts.prefixStr.length + opts.paddedLength + opts.suffixStr.length := by
  obtain ⟨h1, h2, _, _⟩ := formatBody_facts opts h b hb
  have hfloor := h.2
  rw [formatByte_eq]
  simp only [List.length_append, padStart, List.length_replicate]
  omega

/-- With an empty separator, the formatted output length is the byte count
times the unit width. -/
theorem format_length_empty_sep (opts : ResolvedFormatOptions) (h : opts.Valid)
    (hsep : opts.separator = []) :
    ∀ bytes : List Nat, (∀ b ∈ bytes, b < 256) →
      (_format bytes opts).length =
        bytes.length *
          (opts.paddedLength + opts.prefixStr.length + opts.suffixStr.length) := by
  intro bytes hb
  unfold _format
  rw [hsep, joinWithSep_nil_sep]
  induction bytes with
  | nil => simp
  | cons b bs ih =>
    simp only [List.map_cons, List.flatten_cons, List.length_append, List.length_cons]
    rw [formatByte_length opts h b (hb b (by simp)),
      ih (fun x hx => hb x (by simp [hx])), Nat.succ_mul]
    ring

/-- The padded length of a resolved configuration is at least 2 (every
radix floor is at least 2). -/
theorem paddedLength_ge_two (opts : ResolvedFormatOptions) (h : opts.Valid) :
    2 ≤ opts.paddedLength := by
  have h2 := h.2
  rcases h.1 with hr | hr | hr | hr <;> rw [hr] at h2 <;>
    simp [_minPaddedLengthOf] at h2 <;> omega

/-- Round trip of the codec over resolved configurations: decoding the
formatted text returns the original byte sequence whenever the separator
is empty, or non-empty but sharing no character with any formatted unit. -/
theorem roundtrip_core (opts : ResolvedFormatOptions) (h : opts.Valid)
    (bytes : List Nat) (hbytes : ∀ b ∈ bytes, b < 256)
    (hsep : opts.separator = [] ∨
      (∀ c ∈ opts.separator, ∀ b ∈ bytes, c ∉ _formatByte b opts)) :
    _parse (_format bytes opts) opts = .ok bytes := by
  have hW2 : 2 ≤ opts.paddedLength := paddedLength_ge_two opts h
  set W := opts.paddedLength + opts.prefixStr.length + opts.suffixStr.length with hWdef
  have hW1 : 1 ≤ W := by omega
  set units := bytes.map (fun b => _formatByte b opts) with hunits
  have hlen : ∀ u ∈ units, u.length = W := by
    intro u hu
    rw [hunits] at hu
    obtain ⟨b, hbmem, rfl⟩ := List.mem_map.mp hu
    rw [formatByte_length opts h b (hbytes b hbmem)]
    omega
  by_cases hse : opts.separator = []
  · have hfmt : _format bytes opts = units.flatten := by
      unfold _format
      rw [hse, joinWithSep_nil_sep]
    unfold _parse _byteStringArray
    rw [hfmt, hse]
    simp only [List.length_nil, gt_iff_lt, Nat.lt_irrefl, false_and, if_false]
    rw [segmentString_of_uniform W hW1 units hlen]
    exact parseAll_map_format opts h bytes hbytes
  · have hdis : ∀ c ∈ opts.separator, ∀ b ∈ bytes, c ∉ _formatByte b opts :=
      hsep.resolve_left hse
    have hsl : opts.separator.length > 0 := by
      cases hx : opts.separator with
      | nil => exact absurd hx hse
      | cons a l => simp [hx]
    cases bytes with
    | nil =>
      have hfmt : _format [] opts = [] := rfl
      rw [hfmt]
      unfold _parse _byteStringArray
      rw [if_pos hsl]
      have hsplit : splitOnList opts.separator [] = [[]] := by
        unfold splitOnList
        simp [splitOnListAux]
      rw [hsplit, if_pos ⟨hsl, rfl⟩]
    | cons b bs =>
      have hne : units ≠ [] := by
        rw [hunits]
        simp
      have hdisj : ∀ u ∈ units, ∀ c ∈ u, c ∉ opts.separator := by
        intro u hu c hc hcs
        rw [hunits] at hu
        obtain ⟨x, hxmem, rfl⟩ := List.mem_map.mp hu
        exact hdis c hcs x hxmem hc
      have hsplit : splitOnList opts.separator (_format (b :: bs) opts) = units := by
        unfold _format
        exact splitOnList_joinWithSep opts.separator hse units hne hdisj
      unfold _parse _byteStringArray
      rw [if_pos hsl, hsplit]
      have hcond : ¬(opts.separator.length > 0 ∧ units = [[]]) := by
        rintro ⟨_, hu⟩
        have := hlen [] (by rw [hu]; simp)
        simp at this
        omega
      rw [if_neg hcond]
      exact parseAll_map_format opts h (b :: bs) hbytes

/-- For radix 2 and radix 16 the byte regex bounds the parsed value by
255: the digit body has length equal to the floor and the radix to the
power of the floor is exactly 256. -/
theorem parseInt_le_255_of_regex (opts : ResolvedFormatOptions) (h : opts.Valid)
    (hr : opts.radix = 2 ∨ opts.radix = 16) (core : List Char)
    (hm : _byteRegexTest opts core = true) :
    parseIntList opts.radix core ≤ 255 := by
  unfold _byteRegexTest at hm
  dsimp only at hm
  simp only [Bool.and_eq_true, beq_iff_eq, List.all_eq_true] at hm
  obtain ⟨⟨hlen, hzeros⟩, hdigits⟩ := hm
  set p := opts.paddedLength - _minPaddedLengthOf opts.radix with hp
  set f := _minPaddedLengthOf opts.radix with hf
  have hsplit : core.take p ++ core.drop p = core := List.take_append_drop _ _
  have hz : ∀ c ∈ core.take p, c = '0' := by
    intro c hc
    simpa using hzeros c hc
  have hval : parseIntList opts.radix core = parseIntList opts.radix (core.drop p) := by
    conv_lhs => rw [← hsplit]
    exact parseIntList_zeros_append opts.radix _ _ hz
  have hdlen : (core.drop p).length = f := by
    rw [List.length_drop, hlen]
    omega
  have hdig : ∀ c ∈ core.drop p, digitVal c < opts.radix := by
    intro c hc
    apply digitVal_lt_of_isRadixDigit opts.radix h.1
    exact hdigits c hc
  have hbound := foldl_parseInt_lt opts.radix (core.drop p) 0 hdig
  rw [hdlen] at hbound
  rw [hval]
  unfold parseIntList
  rcases hr with hr | hr <;> rw [hr] at hbound ⊢ <;>
    [skip; skip] <;>
    · rw [hr] at hf
      simp only [hf, _minPaddedLengthOf] at hbound
      omega

/-- Per-byte decode with a non-empty prefix that does not head the unit
fails with the unprefixed classification. -/
theorem parseByte_unprefixed (opts : ResolvedFormatOptions) (u : List Char)
    (hp : opts.prefixStr ≠ []) (hnp : ¬ opts.prefixStr.isPrefixOf u = true) :
    _parseByte u opts = .error .unprefixed := by
  unfold _parseByte
  have hl : opts.prefixStr.length > 0 := by
    cases hx : opts.prefixStr with
    | nil => exact absurd hx hp
    | cons a l => simp [hx]
  rw [if_pos hl, if_neg hnp]

/-- Per-byte decode whose prefix step succeeds but whose non-empty suffix
does not end the stripped unit fails with the unsuffixed classification. -/
theorem parseByte_unsuffixed (opts : ResolvedFormatOptions) (u : List Char)
    (hpre : opts.prefixStr = [] ∨ opts.prefixStr.isPrefixOf u = true)
    (hs : opts.suffixStr ≠ [])
    (hns : ¬ opts.suffixStr.isSuffixOf (u.drop opts.prefixStr.length) = true) :
    _parseByte u opts = .error .unsuffixed := by
  unfold _parseByte
  have hstep1 :
      (if opts.prefixStr.length > 0 then
        if opts.prefixStr.isPrefixOf u then
          Except.ok (u.drop opts.prefixStr.length)
        else Except.error ByteParseError.unprefixed
      else Except.ok u) = Except.ok (u.drop opts.prefixStr.length) := by
    rcases hpre with hpe | hpt
    · rw [if_neg (by simp [hpe]), hpe]
      simp
    · by_cases hl : opts.prefixStr.length > 0
      · rw [if_pos hl, if_pos hpt]
      · have : opts.prefixStr = [] := by
          rw [← List.length_eq_zero]
          omega
        rw [if_neg hl, this]
        simp
  rw [hstep1]
  dsimp only
  have hsl : opts.suffixStr.length > 0 := by
    cases hx : opts.suffixStr with
    | nil => exact absurd hx hs
    | cons a l => simp [hx]
  rw [if_pos hsl, if_neg hns]

/-- Per-byte decode whose affix steps succeed but whose core fails the
byte regex fails with the parse-error classification naming the core. -/
theorem parseByte_malformed (opts : ResolvedFormatOptions) (u : List Char)
    (hpre : opts.prefixStr = [] ∨ opts.prefixStr.isPrefixOf u = true)
    (hsuf : opts.suffixStr = [] ∨
      opts.suffixStr.isSuffixOf (u.drop opts.prefixStr.length) = true)
    (hcore : _byteRegexTest opts
      ((u.drop opts.prefixStr.length).take
        ((u.drop opts.prefixStr.length).length - opts.suffixStr.length)) = false) :
    _parseByte u opts =
      .error (.malformed ((u.drop opts.prefixStr.length).take
        ((u.drop opts.prefixStr.length).length - opts.suffixStr.length))) := by
  unfold _parseByte
  have hstep1 :
      (if opts.prefixStr.length > 0 then
        if opts.prefixStr.isPrefixOf u then
          Except.ok (u.drop opts.prefixStr.length)
        else Except.error ByteParseError.unprefixed
      else Except.ok u) = Except.ok (u.drop opts.prefixStr.length) := by
    rcases hpre with hpe | hpt
    · rw [if_neg (by simp [hpe]), hpe]
      simp
    · by_cases hl : opts.prefixStr.length > 0
      · rw [if_pos hl, if_pos hpt]
      · have : opts.prefixStr = [] := by
          rw [← List.length_eq_zero]
          omega
        rw [if_neg hl, this]
        simp
  rw [hstep1]
  dsimp only
  set w1 := u.drop opts.prefixStr.length with hw1
  have hstep2 :
      (if opts.suffixStr.length > 0 then
        if opts.suffixStr.isSuffixOf w1 then
          Except.ok (w1.take (w1.length - opts.suffixStr.length))
        else Except.error ByteParseError.unsuffixed
      else Except.ok w1) = Except.ok (w1.take (w1.length - opts.suffixStr.length)) := by
    rcases hsuf with hse | hst
    · rw [if_neg (by simp [hse]), hse]
      simp
    · by_cases hl : opts.suffixStr.length > 0
      · rw [if_pos hl, if_pos hst]
      · have : opts.suffixStr = [] := by
          rw [← List.length_eq_zero]
          omega
        rw [if_neg hl, this]
        simp
  rw [hstep2]
  dsimp only
  rw [if_neg (by simp [hcore])]

/-- A failing document decode is a failing batch decode of the unit
strings (the empty-split special case never fails). -/
theorem parse_error_parseAll (opts : ResolvedFormatOptions) (text : List Char)
    (e : ByteParseError) (h : _parse text opts = .error e) :
    _parseAll opts (_byteStringArray text opts) = .error e := by
  unfold _parse at h
  dsimp only at h
  split at h
  · exact absurd h (by simp)
  · exact h

/-- A resolved configuration whose separator is the one-character string
holding the zero digit: radix 16, floor width, no affixes. -/
def digitSeparatorConfig : ResolvedFormatOptions :=
  ⟨16, 2, false, [], [], ['0']⟩

/-- C1 counterexample: the round-trip claim fails as stated.  The
configuration with separator the one-character string of the zero digit is
a resolved configuration, yet decoding the formatted text of the byte
sequence of one zero byte fails (the formatted text consists of separator
characters, so splitting yields empty units) instead of returning the
byte sequence. -/
theorem c1_roundtrip_counterexample :
    ResolvedFormatOptions.Valid digitSeparatorConfig ∧
    _parse (_format [0] digitSeparatorConfig) digitSeparatorConfig =
      .error (.malformed []) ∧
    _parse (_format [0] digitSeparatorConfig) digitSeparatorConfig ≠ .ok [0] := by
  refine ⟨by decide, by decide, by decide⟩

/-- C1 (amended): for every resolved configuration and every byte
sequence, parsing the formatted text returns exactly the original bytes,
provided the separator is empty or shares no character with any formatted
unit of the sequence (the amendment the counterexample forces: a separator
built from characters occurring in units corrupts the split). -/
theorem c1_roundtrip (opts : ResolvedFormatOptions) (h : opts.Valid)
    (bytes : List Nat) (hbytes : ∀ b ∈ bytes, b < 256)
    (hsep : opts.separator = [] ∨
      (∀ c ∈ opts.separator, ∀ b ∈ bytes, c ∉ _formatByte b opts)) :
    _parse (_format bytes opts) opts = .ok bytes :=
  roundtrip_core opts h bytes hbytes hsep

/-- C1 witness: the round trip at radix 16 with defaults on a concrete
byte sequence. -/
theorem c1_roundtrip_witness :
    _parse (_format [255, 0, 171] (resolvedDefault 16)) (resolvedDefault 16) =
      .ok [255, 0, 171] :=
  c1_roundtrip (resolvedDefault 16) (by decide) [255, 0, 171] (by decide) (Or.inl rfl)

/-- C2 counterexample: at radix 8 the core string of three sevens passes
the padded-digit pattern, yet its value is 511, outside the byte range,
and the per-byte decoder returns 511; the syntactic pattern does not
guarantee the byte range for radix 8 (nor radix 10). -/
theorem c2_pattern_counterexample :
    _byteRegexTest (resolvedDefault 8) ("777".data) = true ∧
    parseIntList 8 ("777".data) = 511 ∧
    ¬ parseIntList 8 ("777".data) ≤ 255 ∧
    _parseByte ("777".data) (resolvedDefault 8) = .ok 511 := by
  refine ⟨by decide, by decide, by decide, by decide⟩

/-- C2 (amended): the syntactic pattern check alone guarantees the parsed
core value lies in the byte range only for radix 2 and radix 16 (where the
radix to the power of the floor is exactly 256); for radix 8 and 10 the
pattern admits values above 255. -/
theorem c2_pattern_range (opts : ResolvedFormatOptions) (h : opts.Valid)
    (hr : opts.radix = 2 ∨ opts.radix = 16) (core : List Char)
    (hm : _byteRegexTest opts core = true) :
    parseIntList opts.radix core ≤ 255 :=
  parseInt_le_255_of_regex opts h hr core hm

/-- C2 witness: the bound at radix 16 on a concrete matching core. -/
theorem c2_pattern_range_witness : parseIntList 16 ("FF".data) ≤ 255 := by
  have h := c2_pattern_range (resolvedDefault 16) (by decide) (Or.inr rfl)
    ("FF".data) (by decide)
  simpa using h

/-- C3: per-byte encode produces prefix, then the base-radix digit string
of the byte (upper-cased unless lowerCase, digits only) left-padded with
zeros to at least the padded length, then suffix; with defaults the
concrete byte sequence formats to the four expected strings. -/
theorem c3_formatByte_structure :
    (∀ opts : ResolvedFormatOptions, ∀ b : Nat, opts.Valid → b < 256 →
      _formatByte b opts =
        opts.prefixStr ++
          (List.replicate (opts.paddedLength - (formatBody opts b).length) '0' ++
            formatBody opts b) ++ opts.suffixStr ∧
      formatBody opts b =
        (if opts.lowerCase then Nat.toDigits opts.radix b
         else (Nat.toDigits opts.radix b).map Char.toUpper) ∧
      opts.paddedLength ≤
        (List.replicate (opts.paddedLength - (formatBody opts b).length) '0' ++
          formatBody opts b).length ∧
      (formatBody opts b).all (fun c => isRadixDigit opts.radix c) = true) ∧
    _format [255, 254, 253, 252, 0, 1, 2, 3] (resolvedDefault 16) =
      "FFFEFDFC00010203".data ∧
    _format [255, 254, 253, 252, 0, 1, 2, 3] (resolvedDefault 10) =
      "255254253252000001002003".data ∧
    _format [255, 254, 253, 252, 0, 1, 2, 3] (resolvedDefault 8) =
      "377376375374000001002003".data ∧
    _format [255, 254, 253, 252, 0, 1, 2, 3]
      { resolvedDefault 16 with lowerCase := true } = "fffefdfc00010203".data := by
  refine ⟨?_, by decide, by decide, by decide, by decide⟩
  intro opts b h hb
  obtain ⟨h1, h2, h3, _⟩ := formatBody_facts opts h b hb
  refine ⟨?_, rfl, ?_, h3⟩
  · rw [formatByte_eq]
    rfl
  · simp only [List.length_append, List.length_replicate]
    omega

/-- C3 witness: the structural equation at a concrete byte and
configuration. -/
theorem c3_formatByte_structure_witness :
    _formatByte 255 (resolvedDefault 16) =
      (resolvedDefault 16).prefixStr ++
        (List.replicate
          ((resolvedDefault 16).paddedLength -
            (formatBody (resolvedDefault 16) 255).length) '0' ++
          formatBody (resolvedDefault 16) 255) ++ (resolvedDefault 16).suffixStr :=
  (c3_formatByte_structure.1 (resolvedDefault 16) 255 (by decide) (by decide)).1

/-- C4: with an empty separator, parse decodes exactly the fixed-width
segmentation of the text at width paddedLength plus affix lengths; the
segments concatenate back to the text, all segments but the last have
exactly that width, and the last is non-empty and no wider; a short
trailing segment is not rejected at segmentation time — it reaches
per-unit validation, as the concrete decode of the five-character text at
radix 10 shows, failing with the parse error naming the remainder. -/
theorem c4_fixed_width_split :
    (∀ opts : ResolvedFormatOptions, ∀ text : List Char, opts.Valid →
      opts.separator = [] →
      (_parse text opts = _parseAll opts (_segmentString text
        (opts.paddedLength + opts.prefixStr.length + opts.suffixStr.length)) ∧
      (_segmentString text
        (opts.paddedLength + opts.prefixStr.length + opts.suffixStr.length)).flatten =
        text ∧
      (∀ u ∈ (_segmentString text
        (opts.paddedLength + opts.prefixStr.length + opts.suffixStr.length)).dropLast,
        u.length = opts.paddedLength + opts.prefixStr.length + opts.suffixStr.length) ∧
      (∀ l, (_segmentString text
          (opts.paddedLength + opts.prefixStr.length + opts.suffixStr.length)).getLast? =
            some l →
        l ≠ [] ∧
          l.length ≤ opts.paddedLength + opts.prefixStr.length + opts.suffixStr.length))) ∧
    BytesFormat.parse ("0311F".data) (rawWithRadix 10) =
      .error (.byteParse (.malformed ("1F".data))) := by
  refine ⟨?_, by decide⟩
  intro opts text h hsep0
  have hW2 : 2 ≤ opts.paddedLength := paddedLength_ge_two opts h
  have hW1 : 1 ≤ opts.paddedLength + opts.prefixStr.length + opts.suffixStr.length := by
    omega
  refine ⟨?_, ?_, ?_, ?_⟩
  · unfold _parse _byteStringArray
    rw [hsep0]
    simp only [List.length_nil, gt_iff_lt, Nat.lt_irrefl, false_and, if_false]
  · exact segmentFuel_flatten _ hW1 text.length text (le_refl _)
  · exact (segmentFuel_shape _ hW1 text.length text (le_refl _)).1
  · exact (segmentFuel_shape _ hW1 text.length text (le_refl _)).2

/-- C4 witness: the split identity at a concrete text and configuration. -/
theorem c4_fixed_width_split_witness :
    _parse ("0311F".data) (resolvedDefault 10) =
      _parseAll (resolvedDefault 10) (_segmentString ("0311F".data)
        ((resolvedDefault 10).paddedLength + (resolvedDefault 10).prefixStr.length +
          (resolvedDefault 10).suffixStr.length)) :=
  (c4_fixed_width_split.1 (resolvedDefault 10) ("0311F".data) (by decide) rfl).1

/-- C5: per-byte decode classifies failures in order — a unit not headed
by a non-empty prefix fails unprefixed; a prefix-stripped remainder not
ended by a non-empty suffix fails unsuffixed; an affix-valid unit whose
core fails the byte regex fails with the parse error naming that core —
and a failing document decode fails with the error of the first (leftmost)
failing unit, every earlier unit decoding successfully, and returns no
partial result. -/
theorem c5_error_classification :
    (∀ opts : ResolvedFormatOptions, ∀ u : List Char,
      (opts.prefixStr ≠ [] → ¬ opts.prefixStr.isPrefixOf u = true →
        _parseByte u opts = .error .unprefixed) ∧
      ((opts.prefixStr = [] ∨ opts.prefixStr.isPrefixOf u = true) →
        opts.suffixStr ≠ [] →
        ¬ opts.suffixStr.isSuffixOf (u.drop opts.prefixStr.length) = true →
        _parseByte u opts = .error .unsuffixed) ∧
      ((opts.prefixStr = [] ∨ opts.prefixStr.isPrefixOf u = true) →
        (opts.suffixStr = [] ∨
          opts.suffixStr.isSuffixOf (u.drop opts.prefixStr.length) = true) →
        _byteRegexTest opts ((u.drop opts.prefixStr.length).take
          ((u.drop opts.prefixStr.length).length - opts.suffixStr.length)) = false →
        _parseByte u opts = .error (.malformed ((u.drop opts.prefixStr.length).take
          ((u.drop opts.prefixStr.length).length - opts.suffixStr.length))))) ∧
    (∀ opts : ResolvedFormatOptions, ∀ text : List Char, ∀ e : ByteParseError,
      _parse text opts = .error e →
      ∃ i, ∃ hi : i < (_byteStringArray text opts).length,
        _parseByte ((_byteStringArray text opts).get ⟨i, hi⟩) opts = .error e ∧
        ∀ j, ∀ hj : j < (_byteStringArray text opts).length, j < i →
          ∃ v, _parseByte ((_byteStringArray text opts).get ⟨j, hj⟩) opts = .ok v) := by
  refine ⟨fun opts u => ⟨?_, ?_, ?_⟩, fun opts text e he => ?_⟩
  · exact fun hp hnp => parseByte_unprefixed opts u hp hnp
  · exact fun hpre hs hns => parseByte_unsuffixed opts u hpre hs hns
  · exact fun hpre hsuf hcore => parseByte_malformed opts u hpre hsuf hcore
  · exact parseAll_first_error opts (_byteStringArray text opts) e
      (parse_error_parseAll opts text e he)

/-- C5 witness: the unprefixed classification at a concrete unit. -/
theorem c5_error_classification_witness :
    _parseByte ("yFF".data) { resolvedDefault 16 with prefixStr := "x".data } =
      .error .unprefixed :=
  (c5_error_classification.1 { resolvedDefault 16 with prefixStr := "x".data }
    ("yFF".data)).1 (by decide) (by decide)

/-- Every radix floor is at most 8. -/
theorem minPaddedLengthOf_le_eight (r : Nat) : _minPaddedLengthOf r ≤ 8 := by
  unfold _minPaddedLengthOf
  split <;> omega

/-- C6: lenient resolution is total and yields the raw radix exactly when
it is one of 2, 8, 10, 16 (and 16 otherwise), and yields the raw digit
width exactly when it is a finite (safe) integer at least the floor of the
resolved radix (and the floor when the width is absent, not a number, not
an integer, below the floor, or beyond the safe range). -/
theorem c6_lenient_resolution (raw : RawOptionsV0) :
    ((raw.radix = .num 2 → (_resolveFormatOptionsLenient raw).radix = 2) ∧
     (raw.radix = .num 8 → (_resolveFormatOptionsLenient raw).radix = 8) ∧
     (raw.radix = .num 10 → (_resolveFormatOptionsLenient raw).radix = 10) ∧
     (raw.radix = .num 16 → (_resolveFormatOptionsLenient raw).radix = 16) ∧
     ((¬ ∃ q : ℚ, raw.radix = .num q ∧ (q = 2 ∨ q = 8 ∨ q = 10 ∨ q = 16)) →
       (_resolveFormatOptionsLenient raw).radix = 16)) ∧
    ((∀ q : ℚ, raw.minIntegralDigits = .num q → q.den = 1 →
        ((_minPaddedLengthOf (_resolveFormatOptionsLenient raw).radix : Int) ≤ q.num) →
        q.num ≤ maxSafeInteger →
        ((_resolveFormatOptionsLenient raw).paddedLength : Int) = q.num) ∧
     (∀ q : ℚ, raw.minIntegralDigits = .num q →
        (q.den ≠ 1 ∨
          q.num < (_minPaddedLengthOf (_resolveFormatOptionsLenient raw).radix : Int) ∨
          maxSafeInteger < q.num) →
        (_resolveFormatOptionsLenient raw).paddedLength =
          _minPaddedLengthOf (_resolveFormatOptionsLenient raw).radix) ∧
     ((∀ q : ℚ, raw.minIntegralDigits ≠ .num q) →
        (_resolveFormatOptionsLenient raw).paddedLength =
          _minPaddedLengthOf (_resolveFormatOptionsLenient raw).radix)) := by
  have hradix : (_resolveFormatOptionsLenient raw).radix =
      if _isFormatRadix raw.radix then _radixValToNat raw.radix else 16 := rfl
  have hpl : (_resolveFormatOptionsLenient raw).paddedLength =
      (match SafeInteger.fromNumber raw.minIntegralDigits
          ((_minPaddedLengthOf (_resolveFormatOptionsLenient raw).radix : Int))
          ((_minPaddedLengthOf (_resolveFormatOptionsLenient raw).radix : Int))
          maxSafeInteger with
        | .ok v => v
        | .error _ =>
          ((_minPaddedLengthOf (_resolveFormatOptionsLenient raw).radix : Int))).toNat :=
    rfl
  have hms : maxSafeInteger = 9007199254740991 := rfl
  set R := (_resolveFormatOptionsLenient raw).radix with hR
  set F : Int := ((_minPaddedLengthOf R : Nat) : Int) with hF
  have hF0 : 0 ≤ F := by positivity
  have hF8 : F ≤ 8 := by
    rw [hF]
    have := minPaddedLengthOf_le_eight R
    omega
  refine ⟨⟨?_, ?_, ?_, ?_, ?_⟩, ?_, ?_, ?_⟩
  · intro h
    rw [hradix, h]
    decide
  · intro h
    rw [hradix, h]
    decide
  · intro h
    rw [hradix, h]
    decide
  · intro h
    rw [hradix, h]
    decide
  · intro h
    rw [hradix]
    cases hx : raw.radix with
    | num q =>
      have hq : ¬(q = 2 ∨ q = 8 ∨ q = 10 ∨ q = 16) := fun hcon => h ⟨q, hx, hcon⟩
      push_neg at hq
      simp [_isFormatRadix, beq_eq_false_iff_ne, hq.1, hq.2.1, hq.2.2.1, hq.2.2.2]
    | undef => rfl
    | bool b => rfl
    | str s => rfl
    | nanOrInfinity => rfl
    | other => rfl
  · intro q hq hden hge hle
    rw [hpl, hq]
    unfold SafeInteger.fromNumber
    dsimp only
    have hnn : (0 : Int) ≤ q.num := le_trans hF0 hge
    have habs : q.num.natAbs ≤ maxSafeInteger.natAbs := by omega
    rw [if_pos ⟨hden, habs⟩]
    have hmax : max F (min maxSafeInteger q.num) = q.num := by
      rw [min_eq_right hle]
      exact max_eq_right hge
    rw [hmax]
    omega
  · intro q hq hcase
    rw [hpl, hq]
    unfold SafeInteger.fromNumber
    dsimp only
    rcases hcase with hden | hlt | hgt
    · rw [if_neg (fun hcon => hden hcon.1)]
      omega
    · by_cases habs : q.den = 1 ∧ q.num.natAbs ≤ maxSafeInteger.natAbs
      · rw [if_pos habs]
        have hmax : max F (min maxSafeInteger q.num) = F := by
          rw [min_eq_right (by omega)]
          exact max_eq_left (le_of_lt hlt)
        rw [hmax]
        omega
      · rw [if_neg habs]
        omega
    · have hneg : ¬(q.den = 1 ∧ q.num.natAbs ≤ maxSafeInteger.natAbs) := by
        rintro ⟨_, habs⟩
        omega
      rw [if_neg hneg]
      omega
  · intro h
    rw [hpl]
    cases hx : raw.minIntegralDigits with
    | num q => exact absurd hx (h q)
    | undef =>
      unfold SafeInteger.fromNumber
      dsimp only
      omega
    | bool b =>
      unfold SafeInteger.fromNumber
      dsimp only
      omega
    | str s =>
      unfold SafeInteger.fromNumber
      dsimp only
      omega
    | nanOrInfinity =>
      unfold SafeInteger.fromNumber
      dsimp only
      omega
    | other =>
      unfold SafeInteger.fromNumber
      dsimp only
      omega

/-- Raw lenient options selecting radix 8 and digit width 5. -/
def rawOctalWidthFive : RawOptionsV0 :=
  ⟨.num 8, .num 5, .undef, .undef, .undef, .undef⟩

/-- C6 witness: a present integer width at least the floor is used
verbatim by the lenient resolver. -/
theorem c6_lenient_resolution_witness :
    ((_resolveFormatOptionsLenient rawOctalWidthFive).paddedLength : Int) =
      (5 : ℚ).num :=
  (c6_lenient_resolution rawOctalWidthFive).2.1 5 rfl (by decide) (by decide)
    (by decide)

/-- Raw strict options selecting radix 16 and the below-floor width 1. -/
def rawBelowFloorWidth : RawOptions :=
  ⟨.num 16, .num 1, .undef, .undef, .undef, .undef⟩

/-- C7 (behaviour at the failing input documented): the strict resolver
rejects a present non-member radix with the TypeError naming the radix
field and a present non-integer width with the TypeError naming the width
field, but a present positive integer width below the floor is NOT
rejected as a range failure — it is silently clamped to the floor, and no
input at all produces a RangeError-class failure, contradicting the
resolver's own documentation and the claim. -/
theorem c7_strict_resolution :
    (∀ v : JSVal, _isFormatRadix v = true ↔
      ∃ q : ℚ, v = .num q ∧ (q = 2 ∨ q = 8 ∨ q = 10 ∨ q = 16)) ∧
    (∀ raw : RawOptions, raw.radix ≠ .undef → _isFormatRadix raw.radix = false →
      _resolveFormatOptions raw = .error (.typeError ("radix".data))) ∧
    (∀ raw : RawOptions, ∀ q : ℚ,
      (raw.radix = .undef ∨ _isFormatRadix raw.radix = true) →
      raw.paddedLength = .num q → q.den ≠ 1 →
      _resolveFormatOptions raw = .error (.typeError ("paddedLength".data))) ∧
    _resolveFormatOptions rawBelowFloorWidth = .ok ⟨16, 2, false, [], [], []⟩ ∧
    (∀ raw : RawOptions, ∀ e, _resolveFormatOptions raw = .error e →
      ∀ f, e ≠ .rangeError f) := by
  refine ⟨?_, ?_, ?_, by decide, ?_⟩
  · intro v
    cases v with
    | num q =>
      simp only [_isFormatRadix, Bool.or_eq_true, beq_iff_eq, JSVal.num.injEq]
      constructor
      · intro h
        exact ⟨q, rfl, by tauto⟩
      · rintro ⟨q', hq', hmem⟩
        subst hq'
        tauto
    | undef => simp [_isFormatRadix]
    | bool b => simp [_isFormatRadix]
    | str s => simp [_isFormatRadix]
    | nanOrInfinity => simp [_isFormatRadix]
    | other => simp [_isFormatRadix]
  · intro raw h0 hfr
    have hcond : (_isFormatRadix raw.radix || raw.radix == JSVal.undef) = false := by
      rw [hfr]
      simpa using h0
    unfold _resolveFormatOptions
    rw [if_neg (by simp [hcond])]
  · intro raw q hrad hq hden
    have hcond1 : (_isFormatRadix raw.radix || raw.radix == JSVal.undef) = true := by
      rcases hrad with h | h
      · simp [h]
      · simp [h]
    have hcond2 :
        (_isPositiveSafeInteger raw.paddedLength || raw.paddedLength == JSVal.undef) =
          false := by
      rw [hq]
      simp only [_isPositiveSafeInteger, Bool.or_eq_false_iff]
      constructor
      · simp [hden]
      · simp
    unfold _resolveFormatOptions
    rw [if_pos (by simp [hcond1]), if_neg (by simp [hcond2])]
  · intro raw e he f
    unfold _resolveFormatOptions at he
    by_cases h1 : (_isFormatRadix raw.radix || raw.radix == JSVal.undef) = true
    · rw [if_pos h1] at he
      by_cases h2 :
          (_isPositiveSafeInteger raw.paddedLength ||
            raw.paddedLength == JSVal.undef) = true
      · rw [if_pos h2] at he
        dsimp only at he
        by_cases hfr : _isFormatRadix raw.radix = true
        · simp only [hfr, reduceIte] at he
          split at he
          · injection he with h'
            subst h'
            simp
          · exact absurd he (by simp)
        · have hfr' : _isFormatRadix raw.radix = false := by simpa using hfr
          simp only [hfr', reduceIte] at he
          split at he
          · injection he with h'
            subst h'
            simp
          · exact absurd he (by simp)
      · rw [if_neg h2] at he
        injection he with h'
        subst h'
        simp
    · rw [if_neg h1] at he
      injection he with h'
      subst h'
      simp

/-- C7 witness: a present non-member radix is rejected with the TypeError
naming the radix field. -/
theorem c7_strict_resolution_witness :
    _resolveFormatOptions { rawDefault with radix := .num 15 } =
      .error (.typeError ("radix".data)) :=
  c7_strict_resolution.2.1 { rawDefault with radix := .num 15 } (by decide)
    (by decide)

/-- C8: for every configuration, formatting the empty byte sequence gives
the empty string, and parsing the empty string gives the empty byte
sequence — including with a non-empty separator, where splitting the
empty string yields one empty unit and the special case returns the empty
result instead of decoding it. -/
theorem c8_empty_input : ∀ opts : ResolvedFormatOptions,
    _format [] opts = [] ∧ _parse [] opts = .ok [] := by
  intro opts
  refine ⟨rfl, ?_⟩
  unfold _parse _byteStringArray
  dsimp only
  cases hx : opts.separator with
  | nil =>
    simp [splitOnList, splitOnListAux, _segmentString, _segmentStringFuel, _parseAll]
  | cons c cs =>
    simp [splitOnList, splitOnListAux]

/-- C9: at radix 8 and radix 10 a core that matches the padded-digit
pattern but denotes a value above 255 is not rejected: the per-byte
decoder returns the full value, and the document decoder stores it
reduced modulo 256 by the element conversion (511 becomes 255, 999
becomes 231). -/
theorem c9_overflow_mod256 :
    (∀ opts : ResolvedFormatOptions, ∀ u : List Char, ∀ v : Nat,
      _parseByte u opts = .ok v → _parseAll opts [u] = .ok [v % 256]) ∧
    _byteRegexTest (resolvedDefault 8) ("777".data) = true ∧
    _parseByte ("777".data) (resolvedDefault 8) = .ok 511 ∧
    _parse ("777".data) (resolvedDefault 8) = .ok [511 % 256] ∧
    _parse ("777".data) (resolvedDefault 8) = .ok [255] ∧
    _byteRegexTest (resolvedDefault 10) ("999".data) = true ∧
    _parseByte ("999".data) (resolvedDefault 10) = .ok 999 ∧
    _parse ("999".data) (resolvedDefault 10) = .ok [999 % 256] ∧
    _parse ("999".data) (resolvedDefault 10) = .ok [231] := by
  refine ⟨?_, by decide, by decide, by decide, by decide, by decide, by decide,
    by decide, by decide⟩
  intro opts u v h
  simp [_parseAll, h]

/-- C9 witness: the element conversion applied to the octal overflow
unit. -/
theorem c9_overflow_mod256_witness :
    _parseAll (resolvedDefault 8) [("777".data)] = .ok [511 % 256] :=
  c9_overflow_mod256.1 (resolvedDefault 8) ("777".data) 511 (by decide)

/-- C10: for every resolved configuration and byte, the formatted unit
has length exactly prefix length plus padded length plus suffix length;
with an empty separator the whole formatted output has length the byte
count times that unit width. -/
theorem c10_unit_length :
    (∀ opts : ResolvedFormatOptions, opts.Valid → ∀ b : Nat, b < 256 →
      (_formatByte b opts).length =
        opts.prefixStr.length + opts.paddedLength + opts.suffixStr.length) ∧
    (∀ opts : ResolvedFormatOptions, opts.Valid → opts.separator = [] →
      ∀ bytes : List Nat, (∀ b ∈ bytes, b < 256) →
        (_format bytes opts).length =
          bytes.length *
            (opts.paddedLength + opts.prefixStr.length + opts.suffixStr.length)) :=
  ⟨fun opts h b hb => formatByte_length opts h b hb,
   fun opts h hsep bytes hb => format_length_empty_sep opts h hsep bytes hb⟩

/-- C10 witness: the unit length at radix 2 with defaults. -/
theorem c10_unit_length_witness :
    (_formatByte 0 (resolvedDefault 2)).length =
      (resolvedDefault 2).prefixStr.length + (resolvedDefault 2).paddedLength +
        (resolvedDefault 2).suffixStr.length :=
  c10_unit_length.1 (resolvedDefault 2) (by decide) 0 (by decide)
